import Mathlib

/-!
Shallow embedding of `kazumidiparser-core` (`src/crates/kazumidiparser-core/src/lib.rs`).

Conventions:
* Bytes and machine integers are modelled as `Nat`.  All u64/usize additions and
  multiplications in the source are modelled without wrap-around: in a debug build
  they would abort on overflow, so every non-aborting execution agrees with the model.
  The two places where Rust silently discards bits — the `u32` shift in the delta-time
  VLQ accumulator and the `usize` shift in the meta-length VLQ accumulator — carry an
  explicit `% 2^32` / `% 2^64`.
* The byte-stream loops of the source are modelled with an explicit fuel argument that
  decreases structurally; each loop iteration of the source consumes at least one byte
  of the track buffer, so the initial fuel (`data.length + 1`) can never run out, and
  the fuel-exhausted branch returns exactly what the loop's `index >= len` exit returns.
* `rayon`'s `par_sort_by_key` is a stable sort; it is modelled by a stable insertion
  sort on the same key, together with proofs of the three properties (permutation,
  sortedness by key, preservation of every equal-key subsequence) that determine the
  output of any stable sort uniquely.
* File reads (`read_exact`) are modelled by a cursor into the file's byte list; a short
  read is `ioError`, and the `format!(...).into()` errors of the source are
  `formatError` with the corresponding message text.
-/

/-- Header of a parsed MIDI file, mirroring `MidiHeader`. -/
structure MidiHeader where
  format : Nat
  tracks : Nat
  ppqn : Nat
deriving DecidableEq, Repr

/-- A final playable event, mirroring `MidiEvent`. -/
structure MidiEvent where
  absolute_ns : Nat
  status : Nat
  data1 : Nat
  data2 : Nat
  track_index : Nat
  sysex_data : Option (List Nat)
deriving DecidableEq, Repr, Inhabited

/-- Parser state, mirroring `MidiParser` (fields `is_parsed`, `header`, `events`). -/
structure MidiParser where
  is_parsed : Bool
  header : MidiHeader
  events : List MidiEvent
deriving DecidableEq, Repr

/-- Intermediate per-track event payload, mirroring `TempEventData`. -/
inductive TempEventData where
  | midi (status data1 data2 : Nat)
  | tempoChange (new_tempo_us : Nat)
  | sysEx (data : List Nat)
deriving DecidableEq, Repr

/-- Intermediate per-track event, mirroring `TempEvent`. -/
structure TempEvent where
  absolute_tick : Nat
  track_index : Nat
  data : TempEventData
deriving DecidableEq, Repr

/-- Error taxonomy: `ioError` for `File::open`/`read_exact` failures, `formatError`
for the string errors the source raises with `format!(...).into()`. -/
inductive MidiError where
  | ioError
  | formatError (msg : String)
deriving DecidableEq, Repr

deriving instance DecidableEq for Except

/-- Mirrors `MidiParser::new`. -/
def MidiParser.new : MidiParser :=
  { is_parsed := false, header := { format := 0, tracks := 0, ppqn := 0 }, events := [] }

/-- Mirrors `MidiParser::get_header` (lines 58-64). -/
def get_header (p : MidiParser) : Option MidiHeader :=
  if p.is_parsed then some p.header else none

/-- Mirrors `MidiParser::tempo_to_tick_ns` (lines 66-68): `tempo_us * 1000 / ppqn`
with truncating integer division. -/
def tempo_to_tick_ns (tempo_us ppqn : Nat) : Nat :=
  tempo_us * 1000 / ppqn

/-- One VLQ-accumulation loop (lines 83-93 for delta times with `M = 2^32`, lines
124-134 for meta lengths with `M = 2^64`).  Returns `(value, new index)`.  The fuel
starts at `data.length`, which bounds the number of iterations since every iteration
consumes one byte; the fuel-exhausted branch coincides with the buffer-end exit. -/
def readVLQGo (M : Nat) (data : List Nat) : Nat → Nat → Nat → Nat × Nat
  | 0, index, acc => (acc, index)
  | fuel + 1, index, acc =>
    if index < data.length then
      let byte := data.getD index 0
      let acc' := ((acc <<< 7) % M) ||| (byte &&& 0x7F)
      if byte &&& 0x80 == 0 then (acc', index + 1)
      else readVLQGo M data fuel (index + 1) acc'
    else (acc, index)

/-- Delta-time VLQ read (u32 accumulator, lines 82-93). -/
def readVLQ32 (data : List Nat) (index : Nat) : Nat × Nat :=
  readVLQGo 4294967296 data data.length index 0

/-- Meta-length VLQ read (usize accumulator, lines 123-134). -/
def readVLQ64 (data : List Nat) (index : Nat) : Nat × Nat :=
  readVLQGo 18446744073709551616 data data.length index 0

/-- Status-byte resolution with running status (lines 100-113).  Returns
`(status, index after the status byte, new last_status)` or the running-status
`FormatError`. -/
def resolveStatus (tk : Nat) (b : Nat) (index : Nat) (last_status : Option Nat) :
    Except MidiError (Nat × Nat × Option Nat) :=
  if b &&& 0x80 ≠ 0 then .ok (b, index + 1, some b)
  else
    match last_status with
    | some last => .ok (last, index, some last)
    | none =>
        .error (.formatError ("Running status without previous status on track " ++ toString tk))

/-- Result of handling one status dispatch: continue the loop at a new index having
emitted at most one event, or leave the loop (`break`). -/
inductive TrackStep where
  | cont (index : Nat) (emitted : Option TempEvent)
  | stop
deriving DecidableEq, Repr

/-- SysEx body read (lines 161-170): consume bytes up to and including the first
`0xF7`, or to the end of the buffer.  Returns `(payload, new index)`. -/
def readSysExGo (data : List Nat) : Nat → Nat → List Nat → List Nat × Nat
  | 0, index, acc => (acc, index)
  | fuel + 1, index, acc =>
    if index < data.length then
      let byte := data.getD index 0
      if byte == 0xF7 then (acc ++ [byte], index + 1)
      else readSysExGo data fuel (index + 1) (acc ++ [byte])
    else (acc, index)

/-- SysEx body read starting from `index` with sufficient fuel. -/
def readSysEx (data : List Nat) (index : Nat) : List Nat × Nat :=
  readSysExGo data data.length index []

/-- Meta-event handling (lines 115-158): meta type byte, VLQ length, then dispatch on
the type.  Tempo (`0x51`, length 3) emits a TempoChange; end-of-track (`0x2F`,
length 0) leaves the loop; anything else only skips `length` bytes.  Truncation
(`index + length > len`) leaves the loop silently. -/
def handleMeta (data : List Nat) (index absTick tk : Nat) : TrackStep :=
  if index < data.length then
    let metaType := data.getD index 0
    let lr := readVLQ64 data (index + 1)
    let length := lr.1
    let i2 := lr.2
    if i2 + length ≤ data.length then
      if metaType == 0x51 && length == 3 then
        let tempo := ((data.getD i2 0) <<< 16) ||| ((data.getD (i2 + 1) 0) <<< 8) |||
          (data.getD (i2 + 2) 0)
        .cont (i2 + length) (some ⟨absTick, tk, .tempoChange tempo⟩)
      else if metaType == 0x2F && length == 0 then .stop
      else .cont (i2 + length) none
    else .stop
  else .stop

/-- Channel-message handling (lines 177-204): always read `data1`; read `data2` only
when the high nibble is neither `0xC0` nor `0xD0`; running out of bytes leaves the
loop silently. -/
def handleChannel (status : Nat) (data : List Nat) (index absTick tk : Nat) : TrackStep :=
  if index < data.length then
    let data1 := data.getD index 0
    if status &&& 0xF0 ≠ 0xC0 ∧ status &&& 0xF0 ≠ 0xD0 then
      if index + 1 < data.length then
        .cont (index + 2) (some ⟨absTick, tk, .midi status data1 (data.getD (index + 1) 0)⟩)
      else .stop
    else .cont (index + 1) (some ⟨absTick, tk, .midi status data1 0⟩)
  else .stop

/-- Status dispatch (lines 115-209): meta, SysEx, channel message, or the lenient
skip-one-byte branch for other `0xF?` status bytes. -/
def dispatchStatus (status : Nat) (data : List Nat) (index absTick tk : Nat) : TrackStep :=
  if status == 0xFF then handleMeta data index absTick tk
  else if status == 0xF0 then
    let sr := readSysEx data index
    .cont sr.2 (some ⟨absTick, tk, .sysEx sr.1⟩)
  else if status &&& 0xF0 ≠ 0xF0 then handleChannel status data index absTick tk
  else if index < data.length then .cont (index + 1) none
  else .cont index none

/-- The decode loop of `MidiParser::parse_track` (lines 80-210).  State: remaining
fuel, byte index, running status, absolute tick, accumulated events.  Each source
iteration consumes at least one byte, so fuel `data.length + 1` never runs out; the
fuel-exhausted branch returns the accumulated events exactly like the loop exit. -/
def parseTrackGo (tk : Nat) (data : List Nat) :
    Nat → Nat → Option Nat → Nat → List TempEvent → Except MidiError (List TempEvent)
  | 0, _, _, _, acc => .ok acc
  | fuel + 1, index, last_status, absTick, acc =>
    if index < data.length then
      let dr := readVLQ32 data index
      let absTick' := absTick + dr.1
      let i1 := dr.2
      if i1 < data.length then
        match resolveStatus tk (data.getD i1 0) i1 last_status with
        | .error e => .error e
        | .ok st =>
          match dispatchStatus st.1 data st.2.1 absTick' tk with
          | .stop => .ok acc
          | .cont i3 ev => parseTrackGo tk data fuel i3 st.2.2 absTick' (acc ++ ev.toList)
      else .ok acc
    else .ok acc

/-- Mirrors `MidiParser::parse_track` (lines 70-227); the `total_tracks` argument of
the source is used only for logging and is omitted. -/
def parse_track (tk : Nat) (data : List Nat) : Except MidiError (List TempEvent) :=
  parseTrackGo tk data (data.length + 1) 0 none 0 []

/-- The 4 magic bytes `"MThd"`. -/
def MThdBytes : List Nat := [77, 84, 104, 100]

/-- The 4 magic bytes `"MTrk"`. -/
def MTrkBytes : List Nat := [77, 84, 114, 107]

/-- Big-endian u16 from a 2-byte list. -/
def beU16l (l : List Nat) : Nat := l.getD 0 0 * 256 + l.getD 1 0

/-- Big-endian u32 from a 4-byte list. -/
def beU32l (l : List Nat) : Nat :=
  ((l.getD 0 0 * 256 + l.getD 1 0) * 256 + l.getD 2 0) * 256 + l.getD 3 0

/-- Models `read_exact` of `n` bytes at cursor `pos`: a short read is `ioError`. -/
def readExact (file : List Nat) (pos n : Nat) : Except MidiError (List Nat × Nat) :=
  if pos + n ≤ file.length then .ok ((file.drop pos).take n, pos + n)
  else .error .ioError

/-- The track-chunk reading loop (lines 254-265): for each of the remaining `r`
chunks, check the `"MTrk"` magic, read the big-endian length, read that many bytes. -/
def readTrackChunks (file : List Nat) :
    Nat → Nat → Nat → List (List Nat) → Except MidiError (List (List Nat))
  | _, 0, _, acc => .ok acc
  | pos, r + 1, i, acc =>
    match readExact file pos 4 with
    | .error e => .error e
    | .ok m =>
      if m.1 ≠ MTrkBytes then .error (.formatError ("Expected MTrk at track " ++ toString i))
      else
        match readExact file m.2 4 with
        | .error e => .error e
        | .ok lb =>
          match readExact file lb.2 (beU32l lb.1) with
          | .error e => .error e
          | .ok td => readTrackChunks file td.2 r (i + 1) (acc ++ [td.1])

/-- Per-track decode of all chunks in order, first error wins (lines 268-284). -/
def parseAllTracks : List (List Nat) → Nat → Except MidiError (List TempEvent)
  | [], _ => .ok []
  | d :: rest, k =>
    match parse_track k d with
    | .error e => .error e
    | .ok evs =>
      match parseAllTracks rest (k + 1) with
      | .error e => .error e
      | .ok more => .ok (evs ++ more)

/-- Stable insertion of one event into a tick-sorted list: the new element is placed
before the first element whose tick is not smaller.  This is the insertion step of
the stable sort modelling `par_sort_by_key(|e| e.absolute_tick)` (line 292). -/
def insertTick (e : TempEvent) : List TempEvent → List TempEvent
  | [] => [e]
  | x :: xs =>
    if e.absolute_tick ≤ x.absolute_tick then e :: x :: xs
    else x :: insertTick e xs

/-- Stable sort by `absolute_tick`, modelling `par_sort_by_key` (line 292); rayon's
`par_sort_by_key` is stable, and a stable sort's output is determined by the
permutation, sortedness and equal-key-subsequence properties proved below. -/
def sortByTick : List TempEvent → List TempEvent
  | [] => []
  | e :: es => insertTick e (sortByTick es)

/-- One point of the tempo timeline, mirroring the local `TempoPoint` (lines 298-303). -/
structure TimelinePoint where
  absolute_tick : Nat
  absolute_ns : Nat
  tick_ns : Nat
deriving DecidableEq, Repr

/-- The sequential fold over the sorted events appending one timeline point per
TempoChange (lines 317-333).  `u64` subtraction `event.absolute_tick - last_tick`
is `Nat` subtraction; the sorted input makes it non-underflowing. -/
def buildTimelineGo (ppqn : Nat) : Nat → Nat → Nat → List TempEvent → List TimelinePoint
  | _, _, _, [] => []
  | last_tick, elapsed_ns, tick_ns, e :: rest =>
    match e.data with
    | .tempoChange us =>
      let elapsed' := elapsed_ns + (e.absolute_tick - last_tick) * tick_ns
      let tick_ns' := tempo_to_tick_ns us ppqn
      ⟨e.absolute_tick, elapsed', tick_ns'⟩ :: buildTimelineGo ppqn e.absolute_tick elapsed' tick_ns' rest
    | _ => buildTimelineGo ppqn last_tick elapsed_ns tick_ns rest

/-- The tempo timeline (lines 305-333): an initial point at tick 0 with the default
tempo 500 000 µs/quarter, then one point per TempoChange in sorted order. -/
def buildTimeline (ppqn : Nat) (es : List TempEvent) : List TimelinePoint :=
  let t0 := tempo_to_tick_ns 500000 ppqn
  ⟨0, 0, t0⟩ :: buildTimelineGo ppqn 0 0 t0 es

/-- Models `tempo_timeline.partition_point(|p| p.absolute_tick <= t)` (line 341):
for a timeline whose ticks are non-decreasing the predicate holds on a prefix, and
the partition point is the length of that prefix. -/
def partitionPoint (tl : List TimelinePoint) (t : Nat) : Nat :=
  (tl.takeWhile (fun p => decide (p.absolute_tick ≤ t))).length

/-- The tick-to-nanoseconds conversion of one event (lines 340-345).  The source
computes `partition_point - 1` on a `usize` and indexes the timeline; `Nat`
subtraction and `getD` agree with it whenever the partition point is at least 1 and
the index is in bounds, which the timeline shape guarantees (see the C10 theorem). -/
def toNs (tl : List TimelinePoint) (t : Nat) : Nat :=
  (tl.getD (partitionPoint tl t - 1) ⟨0, 0, 0⟩).absolute_ns +
    (t - (tl.getD (partitionPoint tl t - 1) ⟨0, 0, 0⟩).absolute_tick) *
      (tl.getD (partitionPoint tl t - 1) ⟨0, 0, 0⟩).tick_ns

/-- The conversion-and-filter stage (lines 337-372): Midi and SysEx events are mapped
to playable events at `toNs` of their tick; TempoChange events are dropped. -/
def convertEvents (tl : List TimelinePoint) : List TempEvent → List MidiEvent
  | [] => []
  | e :: rest =>
    match e.data with
    | .midi s d1 d2 =>
      ⟨toNs tl e.absolute_tick, s, d1, d2, e.track_index, none⟩ :: convertEvents tl rest
    | .sysEx d =>
      ⟨toNs tl e.absolute_tick, 0xF0, 0, 0, e.track_index, some d⟩ :: convertEvents tl rest
    | .tempoChange _ => convertEvents tl rest

/-- Mirrors `MidiParser::parse_file` (lines 229-376) on an in-memory byte list.
Returns the parser state after the call together with the call's result; note that
the source assigns `self.header` (line 247) before reading any track chunk. -/
def parse_file (p : MidiParser) (file : List Nat) : MidiParser × Except MidiError Unit :=
  match readExact file 0 4 with
  | .error e => (p, .error e)
  | .ok m =>
    if m.1 ≠ MThdBytes then (p, .error (.formatError "Invalid header: no MThd"))
    else
      match readExact file m.2 4 with
      | .error e => (p, .error e)
      | .ok lb =>
        if beU32l lb.1 ≠ 6 then
          (p, .error (.formatError ("Unexpected MThd chunk length: " ++ toString (beU32l lb.1))))
        else
          match readExact file lb.2 6 with
          | .error e => (p, .error e)
          | .ok hb =>
            let header : MidiHeader :=
              ⟨beU16l (hb.1.take 2), beU16l ((hb.1.drop 2).take 2), beU16l (hb.1.drop 4)⟩
            let p1 := { p with header := header }
            match readTrackChunks file hb.2 header.tracks 0 [] with
            | .error e => (p1, .error e)
            | .ok datas =>
              match parseAllTracks datas 0 with
              | .error e => (p1, .error e)
              | .ok tes =>
                let sorted := sortByTick tes
                let tl := buildTimeline header.ppqn sorted
                ({ p1 with events := convertEvents tl sorted, is_parsed := true }, .ok ())

/-- Mirrors `MidiParser::get_events`. -/
def get_events (p : MidiParser) : List MidiEvent := p.events

/-- The grouping loop of `get_track_event_indices` (lines 385-389): append each
event's position to its track's bucket, skipping events whose track index is out of
range of the bucket vector. -/
def pushIndicesGo : List (List Nat) → Nat → List MidiEvent → List (List Nat)
  | groups, _, [] => groups
  | groups, i, e :: rest =>
    let groups' :=
      if e.track_index < groups.length then
        groups.set e.track_index ((groups.getD e.track_index []) ++ [i])
      else groups
    pushIndicesGo groups' (i + 1) rest

/-- Mirrors `MidiParser::get_track_event_indices` (lines 382-391). -/
def get_track_event_indices (p : MidiParser) : List (List Nat) :=
  pushIndicesGo (List.replicate p.header.tracks []) 0 p.events

/-! ### Concrete byte streams used to exercise the model -/

/-- Track bytes: delta 480 (VLQ `83 60`), tempo meta to 1 000 000 µs
(`FF 51 03 0F 42 40`), delta 480, note-on `90 3C 40`, end of track. -/
def c1Track : List Nat :=
  [0x83, 0x60, 0xFF, 0x51, 0x03, 0x0F, 0x42, 0x40,
   0x83, 0x60, 0x90, 0x3C, 0x40,
   0x00, 0xFF, 0x2F, 0x00]

/-- A single-track file with ppqn 480 whose merged stream has one tempo change to
1 000 000 µs/quarter at tick 480 and one note-on at tick 960. -/
def c1File : List Nat :=
  MThdBytes ++ [0, 0, 0, 6] ++ [0, 0, 0, 1, 1, 224] ++
  MTrkBytes ++ [0, 0, 0, 17] ++ c1Track

/-- The intermediate events decoded from `c1Track`. -/
def c1TempEvents : List TempEvent :=
  [⟨480, 0, .tempoChange 1000000⟩, ⟨960, 0, .midi 0x90 0x3C 0x40⟩]

/-- An event left over from a hypothetical earlier successful parse. -/
def c2OldEvent : MidiEvent :=
  { absolute_ns := 123, status := 0x90, data1 := 60, data2 := 64,
    track_index := 0, sysex_data := none }

/-- A parser that already holds a successfully parsed state. -/
def c2Parser : MidiParser :=
  { is_parsed := true, header := { format := 1, tracks := 2, ppqn := 384 },
    events := [c2OldEvent] }

/-- A file with a valid MThd header (format 0, 1 track, ppqn 96) followed by a
chunk whose magic is not `"MTrk"`. -/
def c2File : List Nat :=
  MThdBytes ++ [0, 0, 0, 6] ++ [0, 0, 0, 1, 0, 96] ++ [88, 88, 88, 88]

/-- First track of the two-track witness file: note-on at tick 480. -/
def w3Track0 : List Nat := [0x83, 0x60, 0x90, 0x3C, 0x40, 0x00, 0xFF, 0x2F, 0x00]

/-- Second track of the two-track witness file: note-on at tick 0. -/
def w3Track1 : List Nat := [0x00, 0x91, 0x40, 0x50, 0x00, 0xFF, 0x2F, 0x00]

/-- A two-track file (ppqn 480) with one note per track, at ticks 480 and 0. -/
def w3File : List Nat :=
  MThdBytes ++ [0, 0, 0, 6] ++ [0, 0, 0, 2, 1, 224] ++
  MTrkBytes ++ [0, 0, 0, 9] ++ w3Track0 ++
  MTrkBytes ++ [0, 0, 0, 8] ++ w3Track1

/-- The concatenated intermediate events of the two witness tracks, in track order. -/
def w3TempEvents : List TempEvent :=
  [⟨480, 0, .midi 0x90 0x3C 0x40⟩, ⟨0, 1, .midi 0x91 0x40 0x50⟩]

/-- Consistency of consecutive timeline points: ticks are non-decreasing and each
point's elapsed time extends the previous one by the elapsed segment, exactly the
shape produced by the timeline fold. -/
inductive TimelineChain : List TimelinePoint → Prop
  | nil : TimelineChain []
  | single (p : TimelinePoint) : TimelineChain [p]
  | cons (p q : TimelinePoint) (l : List TimelinePoint)
      (htick : p.absolute_tick ≤ q.absolute_tick)
      (hns : q.absolute_ns = p.absolute_ns + (q.absolute_tick - p.absolute_tick) * p.tick_ns)
      (h : TimelineChain (q :: l)) : TimelineChain (p :: q :: l)

/-- Specification list for one bucket: the positions (counting from `i0`) of the
events whose `track_index` equals `t`, in order. -/
def indicesFor (t : Nat) : Nat → List MidiEvent → List Nat
  | _, [] => []
  | i, e :: rest =>
    if e.track_index = t then i :: indicesFor t (i + 1) rest
    else indicesFor t (i + 1) rest

/-- Is an intermediate event a tempo change? -/
def isTempoChange (e : TempEvent) : Bool :=
  match e.data with
  | .tempoChange _ => true
  | _ => false

/-- The (tick, µs) pairs of the tempo-change events of a stream, in order. -/
def tempoEventsOf (es : List TempEvent) : List (Nat × Nat) :=
  es.filterMap (fun e =>
    match e.data with
    | .tempoChange us => some (e.absolute_tick, us)
    | _ => none)

/-- The timeline fold restricted to the (tick, µs) pairs it actually inspects. -/
def buildTimelinePairs (ppqn : Nat) : Nat → Nat → Nat → List (Nat × Nat) → List TimelinePoint
  | _, _, _, [] => []
  | last_tick, elapsed_ns, tick_ns, (tick, us) :: rest =>
    let elapsed' := elapsed_ns + (tick - last_tick) * tick_ns
    let tick_ns' := tempo_to_tick_ns us ppqn
    ⟨tick, elapsed', tick_ns'⟩ :: buildTimelinePairs ppqn tick elapsed' tick_ns' rest

/-! ### Properties of the stable sort -/

theorem insertTick_perm (e : TempEvent) (l : List TempEvent) : List.Perm (insertTick e l) (e :: l) := by
  induction l with
  | nil => simp [insertTick]
  | cons x xs ih =>
    simp only [insertTick]
    split
    · exact List.Perm.refl _
    · exact (ih.cons x).trans (List.Perm.swap e x xs)

theorem sortByTick_perm (l : List TempEvent) : List.Perm (sortByTick l) l := by
  induction l with
  | nil => simp [sortByTick]
  | cons e es ih => exact (insertTick_perm e (sortByTick es)).trans (ih.cons e)

theorem mem_insertTick {a e : TempEvent} {l : List TempEvent} :
    a ∈ insertTick e l ↔ a = e ∨ a ∈ l := by
  rw [(insertTick_perm e l).mem_iff, List.mem_cons]

theorem insertTick_sorted {e : TempEvent} {l : List TempEvent}
    (h : List.Pairwise (fun a b => a.absolute_tick ≤ b.absolute_tick) l) :
    List.Pairwise (fun a b => a.absolute_tick ≤ b.absolute_tick) (insertTick e l) := by
  induction l with
  | nil => simp [insertTick]
  | cons x xs ih =>
    simp only [insertTick]
    split
    · rename_i hle
      constructor
      · intro b hb
        rcases List.mem_cons.mp hb with rfl | hb
        · exact hle
        · exact le_trans hle (List.rel_of_pairwise_cons h hb)
      · exact h
    · rename_i hlt
      constructor
      · intro b hb
        rcases mem_insertTick.mp hb with rfl | hb
        · exact le_of_not_le hlt
        · exact List.rel_of_pairwise_cons h hb
      · exact ih h.of_cons

theorem sortByTick_sorted (l : List TempEvent) :
    List.Pairwise (fun a b => a.absolute_tick ≤ b.absolute_tick) (sortByTick l) := by
  induction l with
  | nil => simp [sortByTick]
  | cons e es ih => exact insertTick_sorted ih

theorem filter_insertTick_pos {p : TempEvent → Bool}
    (hp : ∀ a b, p a = true → p b = true → a.absolute_tick ≤ b.absolute_tick)
    {e : TempEvent} (he : p e = true) (l : List TempEvent) :
    (insertTick e l).filter p = e :: l.filter p := by
  induction l with
  | nil => simp [insertTick, he]
  | cons x xs ih =>
    simp only [insertTick]
    split
    · simp [List.filter_cons, he]
    · rename_i hlt
      have hx : p x = false := by
        cases hpx : p x with
        | false => rfl
        | true => exact absurd (hp e x he hpx) hlt
      simp [List.filter_cons, hx, ih]

theorem filter_insertTick_neg {p : TempEvent → Bool}
    {e : TempEvent} (he : p e = false) (l : List TempEvent) :
    (insertTick e l).filter p = l.filter p := by
  induction l with
  | nil => simp [insertTick, he]
  | cons x xs ih =>
    simp only [insertTick]
    split
    · simp [List.filter_cons, he]
    · simp [List.filter_cons, ih]

theorem filter_sortByTick {p : TempEvent → Bool}
    (hp : ∀ a b, p a = true → p b = true → a.absolute_tick ≤ b.absolute_tick)
    (l : List TempEvent) : (sortByTick l).filter p = l.filter p := by
  induction l with
  | nil => simp [sortByTick]
  | cons e es ih =>
    simp only [sortByTick]
    cases he : p e with
    | true => rw [filter_insertTick_pos hp he, List.filter_cons_of_pos he, ih]
    | false => rw [filter_insertTick_neg he, List.filter_cons_of_neg (by simp [he]), ih]

/-! ### Timeline consistency and monotonicity of the tick-to-time conversion -/

theorem takeWhile_getD_true {α : Type} {p : α → Bool} :
    ∀ (l : List α) (i : Nat) (d : α), i < (l.takeWhile p).length → p (l.getD i d) = true := by
  intro l
  induction l with
  | nil => intro i d hi; simp [List.takeWhile] at hi
  | cons x xs ih =>
    intro i d hi
    cases hx : p x with
    | false => rw [List.takeWhile_cons_of_neg (by simp [hx])] at hi; simp at hi
    | true =>
      rw [List.takeWhile_cons_of_pos hx] at hi
      cases i with
      | zero => simpa using hx
      | succ i' => simpa using ih i' d (by simpa using hi)

theorem takeWhile_getD_false {α : Type} {p : α → Bool} :
    ∀ (l : List α) (d : α), (l.takeWhile p).length < l.length →
      p (l.getD (l.takeWhile p).length d) = false := by
  intro l
  induction l with
  | nil => intro d hd; simp at hd
  | cons x xs ih =>
    intro d hd
    cases hx : p x with
    | false => rw [List.takeWhile_cons_of_neg (by simp [hx])]; simpa using hx
    | true =>
      rw [List.takeWhile_cons_of_pos hx] at hd ⊢
      simpa using ih d (by simpa using hd)

theorem takeWhile_length_mono {α : Type} {p q : α → Bool} (h : ∀ a, p a = true → q a = true) :
    ∀ l : List α, (l.takeWhile p).length ≤ (l.takeWhile q).length := by
  intro l
  induction l with
  | nil => simp
  | cons x xs ih =>
    cases hx : p x with
    | false => rw [List.takeWhile_cons_of_neg (by simp [hx])]; exact Nat.zero_le _
    | true =>
      rw [List.takeWhile_cons_of_pos hx, List.takeWhile_cons_of_pos (h x hx)]
      simpa using ih

theorem takeWhile_length_le {α : Type} (p : α → Bool) :
    ∀ l : List α, (l.takeWhile p).length ≤ l.length := by
  intro l
  induction l with
  | nil => simp
  | cons x xs ih =>
    cases hx : p x with
    | false => rw [List.takeWhile_cons_of_neg (by simp [hx])]; exact Nat.zero_le _
    | true => rw [List.takeWhile_cons_of_pos hx]; simpa using ih

theorem chain_consec {tl : List TimelinePoint} (h : TimelineChain tl) :
    ∀ (d : TimelinePoint) (i : Nat), i + 1 < tl.length →
      (tl.getD i d).absolute_tick ≤ (tl.getD (i + 1) d).absolute_tick ∧
      (tl.getD (i + 1) d).absolute_ns =
        (tl.getD i d).absolute_ns +
          ((tl.getD (i + 1) d).absolute_tick - (tl.getD i d).absolute_tick) *
            (tl.getD i d).tick_ns := by
  induction h with
  | nil => intro d i hi; simp at hi
  | single p => intro d i hi; simp at hi
  | cons p q l htick hns h ih =>
    intro d i hi
    cases i with
    | zero => simpa using ⟨htick, hns⟩
    | succ i' =>
      have := ih d i' (by simpa using hi)
      simpa using this

theorem chain_ns_mono {tl : List TimelinePoint} (h : TimelineChain tl) (d : TimelinePoint) :
    ∀ (j i : Nat), i ≤ j → j < tl.length →
      (tl.getD i d).absolute_ns ≤ (tl.getD j d).absolute_ns := by
  intro j
  induction j with
  | zero =>
    intro i hij hj
    have : i = 0 := Nat.le_zero.mp hij
    subst this; exact le_refl _
  | succ j' ih =>
    intro i hij hj
    rcases Nat.lt_or_ge i (j' + 1) with hlt | hge
    · calc (tl.getD i d).absolute_ns ≤ (tl.getD j' d).absolute_ns :=
            ih i (Nat.lt_succ_iff.mp hlt) (Nat.lt_of_succ_lt hj)
        _ ≤ (tl.getD (j' + 1) d).absolute_ns := by
            rw [(chain_consec h d j' hj).2]; exact Nat.le_add_right _ _
    · have : i = j' + 1 := Nat.le_antisymm hij hge
      subst this; exact le_refl _

theorem toNs_mono {tl : List TimelinePoint} (hc : TimelineChain tl)
    (hne : tl ≠ []) (h0 : (tl.getD 0 ⟨0, 0, 0⟩).absolute_tick = 0)
    {t t' : Nat} (htt : t ≤ t') : toNs tl t ≤ toNs tl t' := by
  have hk1 : 1 ≤ partitionPoint tl t := by
    cases tl with
    | nil => exact absurd rfl hne
    | cons h rest =>
      simp only [List.getD_cons_zero] at h0
      simp [partitionPoint, List.takeWhile_cons, h0]
  have hkk : partitionPoint tl t ≤ partitionPoint tl t' :=
    takeWhile_length_mono
      (fun p hp => by
        have := of_decide_eq_true hp
        exact decide_eq_true (le_trans this htt)) tl
  have hk'1 : 1 ≤ partitionPoint tl t' := le_trans hk1 hkk
  have hk'len : partitionPoint tl t' ≤ tl.length := takeWhile_length_le _ tl
  have hblen : partitionPoint tl t' - 1 < tl.length :=
    Nat.lt_of_lt_of_le (Nat.sub_lt (Nat.lt_of_lt_of_le Nat.zero_lt_one hk'1) Nat.zero_lt_one) hk'len
  have hab : partitionPoint tl t - 1 ≤ partitionPoint tl t' - 1 := Nat.sub_le_sub_right hkk 1
  have hatick : (tl.getD (partitionPoint tl t - 1) ⟨0, 0, 0⟩).absolute_tick ≤ t := by
    have := takeWhile_getD_true tl (partitionPoint tl t - 1) ⟨0, 0, 0⟩
      (Nat.sub_lt (Nat.lt_of_lt_of_le Nat.zero_lt_one hk1) Nat.zero_lt_one)
    exact of_decide_eq_true this
  have hbtick : (tl.getD (partitionPoint tl t' - 1) ⟨0, 0, 0⟩).absolute_tick ≤ t' := by
    have := takeWhile_getD_true tl (partitionPoint tl t' - 1) ⟨0, 0, 0⟩
      (Nat.sub_lt (Nat.lt_of_lt_of_le Nat.zero_lt_one hk'1) Nat.zero_lt_one)
    exact of_decide_eq_true this
  rcases Nat.lt_or_ge (partitionPoint tl t - 1) (partitionPoint tl t' - 1) with hlt | hge
  · -- distinct segments: climb from segment a to segment b through the chain
    have hka : partitionPoint tl t - 1 + 1 = partitionPoint tl t := Nat.sub_add_cancel hk1
    have hklen : partitionPoint tl t < tl.length := by
      have : partitionPoint tl t ≤ partitionPoint tl t' - 1 := by omega
      exact Nat.lt_of_le_of_lt this hblen
    have hstep : t < (tl.getD (partitionPoint tl t) ⟨0, 0, 0⟩).absolute_tick := by
      have hklen' : (List.takeWhile (fun p => decide (p.absolute_tick ≤ t)) tl).length <
          tl.length := hklen
      have hfalse := takeWhile_getD_false tl ⟨0, 0, 0⟩ hklen'
      have h2 : ¬ ((tl.getD (partitionPoint tl t) ⟨0, 0, 0⟩).absolute_tick ≤ t) :=
        of_decide_eq_false hfalse
      omega
    have hconsec := chain_consec hc ⟨0, 0, 0⟩ (partitionPoint tl t - 1) (by rw [hka]; exact hklen)
    rw [hka] at hconsec
    unfold toNs
    calc (tl.getD (partitionPoint tl t - 1) ⟨0, 0, 0⟩).absolute_ns +
          (t - (tl.getD (partitionPoint tl t - 1) ⟨0, 0, 0⟩).absolute_tick) *
            (tl.getD (partitionPoint tl t - 1) ⟨0, 0, 0⟩).tick_ns
        ≤ (tl.getD (partitionPoint tl t - 1) ⟨0, 0, 0⟩).absolute_ns +
          ((tl.getD (partitionPoint tl t) ⟨0, 0, 0⟩).absolute_tick -
            (tl.getD (partitionPoint tl t - 1) ⟨0, 0, 0⟩).absolute_tick) *
            (tl.getD (partitionPoint tl t - 1) ⟨0, 0, 0⟩).tick_ns := by
          apply Nat.add_le_add_left
          apply Nat.mul_le_mul_right
          omega
      _ = (tl.getD (partitionPoint tl t) ⟨0, 0, 0⟩).absolute_ns := hconsec.2.symm
      _ ≤ (tl.getD (partitionPoint tl t' - 1) ⟨0, 0, 0⟩).absolute_ns := by
          apply chain_ns_mono hc ⟨0, 0, 0⟩ (partitionPoint tl t' - 1) (partitionPoint tl t)
          · omega
          · exact hblen
      _ ≤ (tl.getD (partitionPoint tl t' - 1) ⟨0, 0, 0⟩).absolute_ns +
          (t' - (tl.getD (partitionPoint tl t' - 1) ⟨0, 0, 0⟩).absolute_tick) *
            (tl.getD (partitionPoint tl t' - 1) ⟨0, 0, 0⟩).tick_ns := Nat.le_add_right _ _
  · -- same segment
    have heq : partitionPoint tl t - 1 = partitionPoint tl t' - 1 := Nat.le_antisymm hab hge
    unfold toNs
    rw [heq]
    apply Nat.add_le_add_left
    apply Nat.mul_le_mul_right
    omega

theorem buildTimelineGo_chain (ppqn : Nat) :
    ∀ (es : List TempEvent) (lt en tn : Nat),
      List.Pairwise (fun a b => a.absolute_tick ≤ b.absolute_tick) es →
      (∀ e ∈ es, lt ≤ e.absolute_tick) →
      TimelineChain (⟨lt, en, tn⟩ :: buildTimelineGo ppqn lt en tn es) := by
  intro es
  induction es with
  | nil => intro lt en tn _ _; exact TimelineChain.single _
  | cons e rest ih =>
    intro lt en tn hs hge
    obtain ⟨etick, etk, edata⟩ := e
    cases edata with
    | tempoChange us =>
      simp only [buildTimelineGo]
      refine TimelineChain.cons _ _ _ ?_ ?_ ?_
      · exact hge _ (List.mem_cons_self _ _)
      · rfl
      · exact ih _ _ _ hs.of_cons (fun x hx => List.rel_of_pairwise_cons hs hx)
    | midi s d1 d2 =>
      simp only [buildTimelineGo]
      exact ih _ _ _ hs.of_cons (fun x hx => hge x (List.mem_cons_of_mem _ hx))
    | sysEx d =>
      simp only [buildTimelineGo]
      exact ih _ _ _ hs.of_cons (fun x hx => hge x (List.mem_cons_of_mem _ hx))

theorem buildTimeline_chain (ppqn : Nat) (es : List TempEvent)
    (hs : List.Pairwise (fun a b => a.absolute_tick ≤ b.absolute_tick) es) :
    TimelineChain (buildTimeline ppqn es) :=
  buildTimelineGo_chain ppqn es 0 0 (tempo_to_tick_ns 500000 ppqn) hs
    (fun _ _ => Nat.zero_le _)

theorem buildTimeline_ne_nil (ppqn : Nat) (es : List TempEvent) :
    buildTimeline ppqn es ≠ [] := by
  simp [buildTimeline]

theorem buildTimeline_head_tick (ppqn : Nat) (es : List TempEvent) :
    ((buildTimeline ppqn es).getD 0 ⟨0, 0, 0⟩).absolute_tick = 0 := by
  simp [buildTimeline]

/-! ### Structure of the decoded event stream -/

theorem dispatchStatus_emit_track {status : Nat} {data : List Nat} {index absTick tk i' : Nat}
    {ev : TempEvent} (h : dispatchStatus status data index absTick tk = .cont i' (some ev)) :
    ev.track_index = tk ∧ ev.absolute_tick = absTick := by
  simp only [dispatchStatus, handleMeta, handleChannel] at h
  repeat' split at h
  all_goals
    first
      | exact TrackStep.noConfusion h
      | (injection h with hA hEv
         first
           | exact Option.noConfusion hEv
           | (injection hEv with hEv
              subst hEv
              exact ⟨rfl, rfl⟩))

theorem parseTrackGo_track_index {tk : Nat} {data : List Nat} :
    ∀ (fuel index : Nat) (ls : Option Nat) (absTick : Nat) (acc evs : List TempEvent),
      (∀ e ∈ acc, e.track_index = tk) →
      parseTrackGo tk data fuel index ls absTick acc = .ok evs →
      ∀ e ∈ evs, e.track_index = tk := by
  intro fuel
  induction fuel with
  | zero =>
    intro index ls absTick acc evs hacc h
    simp only [parseTrackGo] at h
    injection h with h
    subst h
    exact hacc
  | succ f ih =>
    intro index ls absTick acc evs hacc h
    simp only [parseTrackGo] at h
    split at h
    · split at h
      · split at h
        · simp at h
        · rename_i st hst
          split at h
          · injection h with h
            subst h
            exact hacc
          · rename_i i3 ev hdisp
            refine ih _ _ _ _ _ ?_ h
            intro e he
            rcases List.mem_append.mp he with he | he
            · exact hacc e he
            · cases ev with
              | none => simp at he
              | some ev' =>
                simp only [Option.toList] at he
                rw [List.mem_singleton.mp he]
                exact (dispatchStatus_emit_track hdisp).1
      · injection h with h; subst h; exact hacc
    · injection h with h; subst h; exact hacc

theorem parse_track_track_index {tk : Nat} {data : List Nat} {evs : List TempEvent}
    (h : parse_track tk data = .ok evs) : ∀ e ∈ evs, e.track_index = tk :=
  parseTrackGo_track_index _ _ _ _ _ _ (by simp) h

theorem parseAllTracks_track_bounds :
    ∀ (datas : List (List Nat)) (k : Nat) (tes : List TempEvent),
      parseAllTracks datas k = .ok tes →
      ∀ e ∈ tes, k ≤ e.track_index ∧ e.track_index < k + datas.length := by
  intro datas
  induction datas with
  | nil =>
    intro k tes h e he
    simp only [parseAllTracks] at h
    injection h with h
    subst h
    simp at he
  | cons d rest ih =>
    intro k tes h e he
    simp only [parseAllTracks] at h
    split at h
    · simp at h
    · rename_i evs hevs
      split at h
      · simp at h
      · rename_i more hmore
        injection h with h
        subst h
        rcases List.mem_append.mp he with he | he
        · have := parse_track_track_index hevs e he
          simp [this]
        · have := ih (k + 1) more hmore e he
          constructor
          · omega
          · simpa [Nat.add_comm, Nat.add_assoc, Nat.add_left_comm] using this.2

theorem parseAllTracks_pairwise_track :
    ∀ (datas : List (List Nat)) (k : Nat) (tes : List TempEvent),
      parseAllTracks datas k = .ok tes →
      List.Pairwise (fun a b => a.track_index ≤ b.track_index) tes := by
  intro datas
  induction datas with
  | nil =>
    intro k tes h
    simp only [parseAllTracks] at h
    injection h with h
    subst h
    exact List.Pairwise.nil
  | cons d rest ih =>
    intro k tes h
    simp only [parseAllTracks] at h
    split at h
    · simp at h
    · rename_i evs hevs
      split at h
      · simp at h
      · rename_i more hmore
        injection h with h
        subst h
        rw [List.pairwise_append]
        refine ⟨?_, ih (k + 1) more hmore, ?_⟩
        · have hall := parse_track_track_index hevs
          exact List.Pairwise.imp_of_mem
            (fun ha hb _ => by rw [hall _ ha, hall _ hb]) (List.pairwise_of_forall_mem_list
              (fun a _ b _ => True.intro))
        · intro a ha b hb
          rw [parse_track_track_index hevs a ha]
          have := parseAllTracks_track_bounds rest (k + 1) more hmore b hb
          omega

theorem parseAllTracks_filter_track :
    ∀ (datas : List (List Nat)) (k : Nat) (tes : List TempEvent),
      parseAllTracks datas k = .ok tes →
      ∀ j, j < datas.length →
        ∃ evs, parse_track (k + j) (datas.getD j []) = .ok evs ∧
          tes.filter (fun e => e.track_index == k + j) = evs := by
  intro datas
  induction datas with
  | nil => intro k tes h j hj; simp at hj
  | cons d rest ih =>
    intro k tes h j hj
    simp only [parseAllTracks] at h
    split at h
    · simp at h
    · rename_i evs hevs
      split at h
      · simp at h
      · rename_i more hmore
        injection h with h
        subst h
        cases j with
        | zero =>
          refine ⟨evs, by simpa using hevs, ?_⟩
          rw [List.filter_append]
          have h1 : evs.filter (fun e => e.track_index == k + 0) = evs := by
            rw [List.filter_eq_self]
            intro a ha
            simp [parse_track_track_index hevs a ha]
          have h2 : more.filter (fun e => e.track_index == k + 0) = [] := by
            rw [List.filter_eq_nil_iff]
            intro a ha
            have := parseAllTracks_track_bounds rest (k + 1) more hmore a ha
            simp only [beq_iff_eq]
            omega
          rw [h1, h2, List.append_nil]
        | succ j' =>
          have hj' : j' < rest.length := by simpa using hj
          obtain ⟨evs', hevs', hfilter⟩ := ih (k + 1) more hmore j' hj'
          refine ⟨evs', ?_, ?_⟩
          · have : k + (j' + 1) = k + 1 + j' := by omega
            rw [this]
            simpa using hevs'
          · rw [List.filter_append]
            have h1 : evs.filter (fun e => e.track_index == k + (j' + 1)) = [] := by
              rw [List.filter_eq_nil_iff]
              intro a ha
              rw [parse_track_track_index hevs a ha]
              simp only [beq_iff_eq]
              omega
            have h2 : more.filter (fun e => e.track_index == k + (j' + 1)) = evs' := by
              have : k + (j' + 1) = k + 1 + j' := by omega
              rw [this]
              exact hfilter
            rw [h1, h2, List.nil_append]

theorem readTrackChunks_length {file : List Nat} :
    ∀ (r pos i : Nat) (acc res : List (List Nat)),
      readTrackChunks file pos r i acc = .ok res → res.length = acc.length + r := by
  intro r
  induction r with
  | zero =>
    intro pos i acc res h
    simp only [readTrackChunks] at h
    injection h with h
    subst h
    simp
  | succ r' ih =>
    intro pos i acc res h
    simp only [readTrackChunks] at h
    split at h
    · simp at h
    · split at h
      · simp at h
      · split at h
        · simp at h
        · split at h
          · simp at h
          · have := ih _ _ _ _ h
            simp at this
            omega

/-! ### Inversion of a successful parse and properties of the conversion stage -/

theorem parse_file_ok_inv {p p' : MidiParser} {file : List Nat}
    (h : parse_file p file = (p', Except.ok ())) :
    ∃ datas tes,
      parseAllTracks datas 0 = .ok tes ∧
      datas.length = p'.header.tracks ∧
      p'.is_parsed = true ∧
      p'.events =
        convertEvents (buildTimeline p'.header.ppqn (sortByTick tes)) (sortByTick tes) := by
  simp only [parse_file] at h
  split at h
  · simp at h
  · split at h
    · simp at h
    · split at h
      · simp at h
      · split at h
        · simp at h
        · split at h
          · simp at h
          · rename_i hb hdr hlen6 hhb
            split at h
            · simp at h
            · rename_i datas hdatas
              split at h
              · simp at h
              · rename_i tes htes
                rw [Prod.mk.injEq] at h
                obtain ⟨h1, -⟩ := h
                subst h1
                refine ⟨datas, tes, htes, ?_, rfl, rfl⟩
                have := readTrackChunks_length _ _ _ _ _ hdatas
                simpa using this

theorem mem_convertEvents {tl : List TimelinePoint} :
    ∀ {es : List TempEvent} {me : MidiEvent}, me ∈ convertEvents tl es →
      ∃ e ∈ es, me.absolute_ns = toNs tl e.absolute_tick ∧ me.track_index = e.track_index := by
  intro es
  induction es with
  | nil => intro me hme; simp [convertEvents] at hme
  | cons e rest ih =>
    intro me hme
    obtain ⟨etick, etk, edata⟩ := e
    cases edata with
    | midi s d1 d2 =>
      simp only [convertEvents] at hme
      rcases List.mem_cons.mp hme with rfl | hme
      · exact ⟨_, List.mem_cons_self _ _, rfl, rfl⟩
      · obtain ⟨x, hx, hns, htk⟩ := ih hme
        exact ⟨x, List.mem_cons_of_mem _ hx, hns, htk⟩
    | sysEx d =>
      simp only [convertEvents] at hme
      rcases List.mem_cons.mp hme with rfl | hme
      · exact ⟨_, List.mem_cons_self _ _, rfl, rfl⟩
      · obtain ⟨x, hx, hns, htk⟩ := ih hme
        exact ⟨x, List.mem_cons_of_mem _ hx, hns, htk⟩
    | tempoChange us =>
      simp only [convertEvents] at hme
      obtain ⟨x, hx, hns, htk⟩ := ih hme
      exact ⟨x, List.mem_cons_of_mem _ hx, hns, htk⟩

theorem convertEvents_pairwise_ns {tl : List TimelinePoint}
    (hmono : ∀ t t', t ≤ t' → toNs tl t ≤ toNs tl t') :
    ∀ {es : List TempEvent},
      List.Pairwise (fun a b => a.absolute_tick ≤ b.absolute_tick) es →
      List.Pairwise (fun a b : MidiEvent => a.absolute_ns ≤ b.absolute_ns)
        (convertEvents tl es) := by
  intro es
  induction es with
  | nil => intro _; simp [convertEvents]
  | cons e rest ih =>
    intro hs
    obtain ⟨etick, etk, edata⟩ := e
    have hrest := ih hs.of_cons
    have hhead : ∀ me ∈ convertEvents tl rest,
        toNs tl etick ≤ me.absolute_ns := by
      intro me hme
      obtain ⟨x, hx, hns, -⟩ := mem_convertEvents hme
      rw [hns]
      exact hmono _ _ (List.rel_of_pairwise_cons hs hx)
    cases edata with
    | midi s d1 d2 =>
      simp only [convertEvents]
      exact List.Pairwise.cons hhead hrest
    | sysEx d =>
      simp only [convertEvents]
      exact List.Pairwise.cons hhead hrest
    | tempoChange us =>
      simp only [convertEvents]
      exact hrest

/-! ### Characterisation of the track-index grouping -/

theorem getD_set_self {α : Type} :
    ∀ (l : List α) (i : Nat) (x d : α), i < l.length → (l.set i x).getD i d = x := by
  intro l
  induction l with
  | nil => intro i x d h; simp at h
  | cons a as ih =>
    intro i x d h
    cases i with
    | zero => simp
    | succ i' => simpa using ih i' x d (by simpa using h)

theorem getD_set_ne {α : Type} :
    ∀ (l : List α) (i j : Nat) (x d : α), i ≠ j → (l.set i x).getD j d = l.getD j d := by
  intro l
  induction l with
  | nil => intro i j x d _; simp
  | cons a as ih =>
    intro i j x d hij
    cases i with
    | zero =>
      cases j with
      | zero => exact absurd rfl hij
      | succ j' => simp
    | succ i' =>
      cases j with
      | zero => simp
      | succ j' => simpa using ih i' j' x d (fun hc => hij (by rw [hc]))

theorem getD_replicate {α : Type} :
    ∀ (n t : Nat) (x d : α), t < n → (List.replicate n x).getD t d = x := by
  intro n
  induction n with
  | zero => intro t x d h; simp at h
  | succ n' ih =>
    intro t x d h
    cases t with
    | zero => simp [List.replicate]
    | succ t' => simpa [List.replicate] using ih t' x d (by omega)

theorem pushIndicesGo_length :
    ∀ (evts : List MidiEvent) (groups : List (List Nat)) (i : Nat),
      (pushIndicesGo groups i evts).length = groups.length := by
  intro evts
  induction evts with
  | nil => intro groups i; simp [pushIndicesGo]
  | cons e rest ih =>
    intro groups i
    simp only [pushIndicesGo]
    split
    · rw [ih]; simp
    · rw [ih]

theorem pushIndicesGo_getD :
    ∀ (evts : List MidiEvent) (groups : List (List Nat)) (i t : Nat), t < groups.length →
      (pushIndicesGo groups i evts).getD t [] = groups.getD t [] ++ indicesFor t i evts := by
  intro evts
  induction evts with
  | nil => intro groups i t ht; simp [pushIndicesGo, indicesFor]
  | cons e rest ih =>
    intro groups i t ht
    simp only [pushIndicesGo, indicesFor]
    by_cases he : e.track_index = t
    · subst he
      rw [if_pos ht, if_pos rfl]
      rw [ih (groups.set e.track_index (groups.getD e.track_index [] ++ [i])) (i + 1)
        e.track_index (by simpa using ht)]
      rw [getD_set_self _ _ _ _ ht]
      simp
    · have hgetD : ∀ groups' : List (List Nat), groups'.length = groups.length →
          groups'.getD t [] = groups.getD t [] →
          (pushIndicesGo groups' (i + 1) rest).getD t [] =
            groups.getD t [] ++ indicesFor t (i + 1) rest := by
        intro groups' hlen hsame
        rw [ih groups' (i + 1) t (by rw [hlen]; exact ht), hsame]
      rw [if_neg he]
      split
      · exact hgetD _ (by simp) (getD_set_ne _ _ _ _ _ he)
      · exact hgetD _ rfl rfl

theorem indicesFor_mem {t : Nat} :
    ∀ (evts : List MidiEvent) (i0 x : Nat), x ∈ indicesFor t i0 evts →
      i0 ≤ x ∧ x - i0 < evts.length ∧ (evts.getD (x - i0) default).track_index = t := by
  intro evts
  induction evts with
  | nil => intro i0 x hx; simp [indicesFor] at hx
  | cons e rest ih =>
    intro i0 x hx
    simp only [indicesFor] at hx
    by_cases he : e.track_index = t
    · rw [if_pos he] at hx
      rcases List.mem_cons.mp hx with rfl | hx
      · simpa using he
      · obtain ⟨h1, h2, h3⟩ := ih (i0 + 1) x hx
        have hsub : x - i0 = (x - (i0 + 1)) + 1 := by omega
        refine ⟨by omega, by simp; omega, ?_⟩
        rw [hsub, List.getD_cons_succ]
        exact h3
    · rw [if_neg he] at hx
      obtain ⟨h1, h2, h3⟩ := ih (i0 + 1) x hx
      have hsub : x - i0 = (x - (i0 + 1)) + 1 := by omega
      refine ⟨by omega, by simp; omega, ?_⟩
      rw [hsub, List.getD_cons_succ]
      exact h3

theorem indicesFor_complete {t : Nat} :
    ∀ (evts : List MidiEvent) (i0 j : Nat), j < evts.length →
      (evts.getD j default).track_index = t → (i0 + j) ∈ indicesFor t i0 evts := by
  intro evts
  induction evts with
  | nil => intro i0 j hj _; simp at hj
  | cons e rest ih =>
    intro i0 j hj htk
    simp only [indicesFor]
    cases j with
    | zero =>
      simp only [List.getD_cons_zero] at htk
      rw [if_pos htk]
      simp
    | succ j' =>
      have hmem := ih (i0 + 1) j' (by simpa using hj) (by simpa using htk)
      have harith : i0 + 1 + j' = i0 + (j' + 1) := by omega
      rw [harith] at hmem
      split
      · exact List.mem_cons_of_mem _ hmem
      · exact hmem

theorem indicesFor_sorted {t : Nat} :
    ∀ (evts : List MidiEvent) (i0 : Nat), List.Pairwise (· < ·) (indicesFor t i0 evts) := by
  intro evts
  induction evts with
  | nil => intro i0; simp [indicesFor]
  | cons e rest ih =>
    intro i0
    simp only [indicesFor]
    split
    · refine List.Pairwise.cons ?_ (ih (i0 + 1))
      intro y hy
      have := (indicesFor_mem rest (i0 + 1) y hy).1
      omega
    · exact ih (i0 + 1)

/-! ### Characterisation of the SysEx read -/

theorem drop_getD_cons {data : List Nat} {index : Nat} (h : index < data.length) :
    data.drop index = data.getD index 0 :: data.drop (index + 1) := by
  rw [List.drop_eq_getElem_cons h]
  congr 1
  exact (List.getD_eq_getElem data 0 h).symm

theorem readSysExGo_spec (data : List Nat) :
    ∀ (fuel index : Nat) (acc : List Nat), data.length ≤ index + fuel → index ≤ data.length →
      ((0xF7 ∉ data.drop index) →
         readSysExGo data fuel index acc = (acc ++ data.drop index, data.length)) ∧
      (∀ pre suf, data.drop index = pre ++ 0xF7 :: suf → 0xF7 ∉ pre →
         readSysExGo data fuel index acc = (acc ++ pre ++ [0xF7], index + pre.length + 1)) := by
  intro fuel
  induction fuel with
  | zero =>
    intro index acc hfuel hidx
    have hlen : index = data.length := by omega
    subst hlen
    rw [List.drop_length]
    constructor
    · intro _
      simp [readSysExGo]
    · intro pre suf hss _
      exact absurd hss.symm (by simp)
  | succ f ih =>
    intro index acc hfuel hidx
    by_cases hlt : index < data.length
    · have hdrop := drop_getD_cons hlt
      by_cases hbyte : data.getD index 0 = 0xF7
      · constructor
        · intro hnot
          exact absurd (by rw [hdrop, hbyte]; exact List.mem_cons_self _ _) hnot
        · intro pre suf hss hpre
          have hpre_nil : pre = [] := by
            cases pre with
            | nil => rfl
            | cons a pre' =>
              rw [hdrop] at hss
              have : data.getD index 0 = a := by
                have := congrArg (fun l => List.headD l 0) hss
                simpa using this
              exact absurd (by rw [← this, hbyte]; exact List.mem_cons_self _ _) hpre
          subst hpre_nil
          simp only [readSysExGo, if_pos hlt]
          rw [if_pos (by simpa using hbyte)]
          rw [hbyte]
          simp
      · have hnext := ih (index + 1) (acc ++ [data.getD index 0]) (by omega) (by omega)
        constructor
        · intro hnot
          have hnot' : 0xF7 ∉ data.drop (index + 1) := by
            intro hc
            exact hnot (by rw [hdrop]; exact List.mem_cons_of_mem _ hc)
          simp only [readSysExGo, if_pos hlt]
          rw [if_neg (by simpa using hbyte)]
          rw [(hnext.1 hnot')]
          rw [hdrop]
          simp
        · intro pre suf hss hpre
          cases pre with
          | nil =>
            rw [hdrop] at hss
            have : data.getD index 0 = 0xF7 := by
              have := congrArg (fun l => List.headD l 0) hss
              simpa using this
            exact absurd this hbyte
          | cons a pre' =>
            rw [hdrop] at hss
            have ha : data.getD index 0 = a := by
              have := congrArg (fun l => List.headD l 0) hss
              simpa using this
            have htail : data.drop (index + 1) = pre' ++ 0xF7 :: suf := by
              have := congrArg List.tail hss
              simpa using this
            have hpre' : 0xF7 ∉ pre' := fun hc => hpre (List.mem_cons_of_mem _ hc)
            simp only [readSysExGo, if_pos hlt]
            rw [if_neg (by simpa using hbyte)]
            rw [hnext.2 pre' suf htail hpre']
            rw [ha, Prod.mk.injEq]
            refine ⟨by simp, by simp only [List.length_cons]; omega⟩
    · have hlen : index = data.length := by omega
      subst hlen
      rw [List.drop_length]
      constructor
      · intro _
        simp only [readSysExGo, if_neg (by omega : ¬ data.length < data.length)]
        simp
      · intro pre suf hss _
        exact absurd hss.symm (by simp)

theorem readSysEx_spec (data : List Nat) (index : Nat) (hidx : index ≤ data.length) :
    ((0xF7 ∉ data.drop index) →
       readSysEx data index = (data.drop index, data.length)) ∧
    (∀ pre suf, data.drop index = pre ++ 0xF7 :: suf → 0xF7 ∉ pre →
       readSysEx data index = (pre ++ [0xF7], index + pre.length + 1)) := by
  have := readSysExGo_spec data data.length index [] (by omega) hidx
  constructor
  · intro h
    have := this.1 h
    simpa [readSysEx] using this
  · intro pre suf hss hpre
    have := this.2 pre suf hss hpre
    simpa [readSysEx] using this

/-! ### The timeline depends only on the tempo events -/

theorem buildTimelineGo_eq_pairs (ppqn : Nat) :
    ∀ (es : List TempEvent) (lt en tn : Nat),
      buildTimelineGo ppqn lt en tn es = buildTimelinePairs ppqn lt en tn (tempoEventsOf es) := by
  intro es
  induction es with
  | nil => intro lt en tn; simp [buildTimelineGo, tempoEventsOf, buildTimelinePairs]
  | cons e rest ih =>
    intro lt en tn
    obtain ⟨etick, etk, edata⟩ := e
    cases edata with
    | tempoChange us =>
      simp only [buildTimelineGo, tempoEventsOf, List.filterMap_cons]
      simp only [buildTimelinePairs]
      rw [ih]
      rfl
    | midi s d1 d2 =>
      simp only [buildTimelineGo, tempoEventsOf, List.filterMap_cons]
      exact ih lt en tn
    | sysEx d =>
      simp only [buildTimelineGo, tempoEventsOf, List.filterMap_cons]
      exact ih lt en tn

theorem convertEvents_map_ns (tl : List TimelinePoint) :
    ∀ es : List TempEvent,
      (convertEvents tl es).map (fun e => e.absolute_ns) =
        (es.filter (fun e => !(isTempoChange e))).map (fun e => toNs tl e.absolute_tick) := by
  intro es
  induction es with
  | nil => simp [convertEvents]
  | cons e rest ih =>
    obtain ⟨etick, etk, edata⟩ := e
    cases edata with
    | midi s d1 d2 => simpa [convertEvents, isTempoChange, List.filter_cons] using ih
    | sysEx d => simpa [convertEvents, isTempoChange, List.filter_cons] using ih
    | tempoChange us => simpa [convertEvents, isTempoChange, List.filter_cons] using ih

/-! ### Reads depend only on the bytes before the cursor's reach -/

theorem readExact_append {a rest : List Nat} {pos n : Nat} (h : pos + n ≤ a.length) :
    readExact (a ++ rest) pos n = readExact a pos n := by
  unfold readExact
  rw [if_pos (by simp; omega), if_pos h]
  have h1 : (a ++ rest).drop pos = a.drop pos ++ rest.drop (pos - a.length) :=
    List.drop_append_eq_append_drop
  have h2 : pos - a.length = 0 := by omega
  rw [h1, h2, List.drop_zero]
  have h3 : (a.drop pos ++ rest).take n =
      (a.drop pos).take n ++ rest.take (n - (a.drop pos).length) :=
    List.take_append_eq_append_take
  have h4 : n - (a.drop pos).length = 0 := by simp; omega
  rw [h3, h4, List.take_zero, List.append_nil]

/-! ### The claims -/

/-- C1, counterexample: for a parse of a file whose header has ppqn 480 and whose
merged stream has a single tempo change to 1 000 000 µs/quarter at tick 480, the
non-tempo event at tick 960 is assigned 1 499 999 520 ns, not the 1 500 000 000 ns
the claim states: `tempo_to_tick_ns` divides with truncation, so the two segments
contribute 480 * 1 041 666 and 480 * 2 083 333 nanoseconds. -/
theorem c1_counterexample :
    parse_track 0 c1Track = .ok c1TempEvents ∧
    (parse_file MidiParser.new c1File).2 = .ok () ∧
    (parse_file MidiParser.new c1File).1.header.ppqn = 480 ∧
    (parse_file MidiParser.new c1File).1.events.map (fun e => e.absolute_ns) =
      [1499999520] ∧
    (1499999520 : Nat) ≠ 1500000000 := by
  refine ⟨by decide, by decide, by decide, by decide, by decide⟩

/-- C1 (amended): with ppqn 480 and a single tempo change to 1 000 000 µs/quarter at
tick 480, the conversion assigns to tick 960 exactly 1 499 999 520 ns (the truncated
per-tick values are 1 041 666 and 2 083 333 ns), and every non-tempo event of the
stream is assigned `toNs` of its tick by the conversion stage. -/
theorem c1_amended_exact_ns (es : List TempEvent)
    (h : tempoEventsOf es = [(480, 1000000)]) :
    toNs (buildTimeline 480 es) 960 = 1499999520 ∧
    (convertEvents (buildTimeline 480 es) es).map (fun e => e.absolute_ns) =
      (es.filter (fun e => !(isTempoChange e))).map
        (fun e => toNs (buildTimeline 480 es) e.absolute_tick) := by
  constructor
  · have hb : buildTimeline 480 es =
        ⟨0, 0, tempo_to_tick_ns 500000 480⟩ ::
          buildTimelinePairs 480 0 0 (tempo_to_tick_ns 500000 480) (tempoEventsOf es) := by
      rw [show buildTimeline 480 es =
          ⟨0, 0, tempo_to_tick_ns 500000 480⟩ ::
            buildTimelineGo 480 0 0 (tempo_to_tick_ns 500000 480) es from rfl,
        buildTimelineGo_eq_pairs]
    rw [hb, h]
    decide
  · exact convertEvents_map_ns _ es

/-- Witness for the amended C1 at the concrete decoded stream of `c1Track`. -/
theorem c1_amended_exact_ns_witness :
    tempoEventsOf c1TempEvents = [(480, 1000000)] ∧
    toNs (buildTimeline 480 c1TempEvents) 960 = 1499999520 :=
  ⟨by decide, (c1_amended_exact_ns c1TempEvents (by decide)).1⟩

/-- C2: a failed parse can leave a half-written mix of old and new state.  The
source assigns `self.header` right after reading the MThd payload (line 247), before
any track chunk is read; when the first track chunk's magic is wrong the call fails
but the instance now exposes the new header (`is_parsed` is still true from the
earlier successful parse) next to the previous parse's events. -/
theorem c2_failed_parse_mixed_state :
    (parse_file c2Parser c2File).2 =
      .error (.formatError "Expected MTrk at track 0") ∧
    (parse_file c2Parser c2File).1.header = { format := 0, tracks := 1, ppqn := 96 } ∧
    c2Parser.header = { format := 1, tracks := 2, ppqn := 384 } ∧
    (parse_file c2Parser c2File).1.events = [c2OldEvent] ∧
    (parse_file c2Parser c2File).1.is_parsed = true ∧
    get_header (parse_file c2Parser c2File).1 =
      some { format := 0, tracks := 1, ppqn := 96 } ∧
    ({ format := 0, tracks := 1, ppqn := 96 } : MidiHeader) ≠
      { format := 1, tracks := 2, ppqn := 384 } := by
  refine ⟨by decide, by decide, by decide, by decide, by decide, by decide, by decide⟩

/-- C3: on every input on which `parse_file` succeeds, the resulting event sequence
is non-decreasing in `absolute_ns`: the intermediate stream is sorted by tick, the
timeline built from it is a consistent chain, and the tick-to-time conversion is
monotone, so the converted sequence is pairwise non-decreasing. -/
theorem c3_events_monotone_ns {p p' : MidiParser} {file : List Nat}
    (h : parse_file p file = (p', Except.ok ()))
    (i j : Nat) (hij : i < j) (hj : j < p'.events.length) :
    (p'.events.get ⟨i, Nat.lt_trans hij hj⟩).absolute_ns ≤
      (p'.events.get ⟨j, hj⟩).absolute_ns := by
  obtain ⟨datas, tes, htes, hlen, hparsed, hevents⟩ := parse_file_ok_inv h
  have hsorted := sortByTick_sorted tes
  have hchain := buildTimeline_chain p'.header.ppqn (sortByTick tes) hsorted
  have hmono : ∀ t t', t ≤ t' →
      toNs (buildTimeline p'.header.ppqn (sortByTick tes)) t ≤
        toNs (buildTimeline p'.header.ppqn (sortByTick tes)) t' :=
    fun t t' htt => toNs_mono hchain (buildTimeline_ne_nil _ _) (buildTimeline_head_tick _ _) htt
  have hpw := convertEvents_pairwise_ns hmono hsorted
  rw [← hevents] at hpw
  exact List.pairwise_iff_get.mp hpw ⟨i, Nat.lt_trans hij hj⟩ ⟨j, hj⟩ hij

/-- Witness for C3 on the two-track file: the two events come out with
non-decreasing `absolute_ns`. -/
theorem c3_events_monotone_ns_witness :
    ((parse_file MidiParser.new w3File).1.events.get
        ⟨0, Nat.lt_trans Nat.zero_lt_one (by decide)⟩).absolute_ns ≤
      ((parse_file MidiParser.new w3File).1.events.get ⟨1, by decide⟩).absolute_ns :=
  @c3_events_monotone_ns MidiParser.new ((parse_file MidiParser.new w3File).1) w3File
    (by decide) 0 1 Nat.zero_lt_one (by decide)

theorem chain_tick_mono {tl : List TimelinePoint} (h : TimelineChain tl) (d : TimelinePoint) :
    ∀ (j i : Nat), i ≤ j → j < tl.length →
      (tl.getD i d).absolute_tick ≤ (tl.getD j d).absolute_tick := by
  intro j
  induction j with
  | zero =>
    intro i hij hj
    have : i = 0 := Nat.le_zero.mp hij
    subst this; exact le_refl _
  | succ j' ih =>
    intro i hij hj
    rcases Nat.lt_or_ge i (j' + 1) with hlt | hge
    · calc (tl.getD i d).absolute_tick ≤ (tl.getD j' d).absolute_tick :=
            ih i (Nat.lt_succ_iff.mp hlt) (Nat.lt_of_succ_lt hj)
        _ ≤ (tl.getD (j' + 1) d).absolute_tick := (chain_consec h d j' hj).1
    · have : i = j' + 1 := Nat.le_antisymm hij hge
      subst this; exact le_refl _

theorem partitionPoint_pos {tl : List TimelinePoint} (hne : tl ≠ [])
    (h0 : (tl.getD 0 ⟨0, 0, 0⟩).absolute_tick = 0) (t : Nat) : 1 ≤ partitionPoint tl t := by
  cases tl with
  | nil => exact absurd rfl hne
  | cons h rest =>
    simp only [List.getD_cons_zero] at h0
    simp [partitionPoint, List.takeWhile_cons, h0]

theorem partitionPoint_point_tick_le (tl : List TimelinePoint) (t : Nat)
    (hpos : 1 ≤ partitionPoint tl t) :
    (tl.getD (partitionPoint tl t - 1) ⟨0, 0, 0⟩).absolute_tick ≤ t := by
  have hlt : partitionPoint tl t - 1 <
      (tl.takeWhile fun p => decide (p.absolute_tick ≤ t)).length := by
    have : partitionPoint tl t - 1 < partitionPoint tl t := by omega
    exact this
  exact of_decide_eq_true (takeWhile_getD_true tl _ _ hlt)

/-- C10: the timeline lookup of the conversion stage is always well-defined: the
timeline built from the sorted stream is non-empty, starts at tick 0, has
non-decreasing ticks, and for every event of the sorted stream the partition point
is at least 1 (so the `- 1` of the source cannot underflow), the resulting index is
in bounds, and the chosen point's tick is at most the event's tick (so the tick
subtraction cannot underflow either). -/
theorem c10_timeline_lookup_safe (ppqn : Nat) (tes : List TempEvent) :
    buildTimeline ppqn (sortByTick tes) ≠ [] ∧
    ((buildTimeline ppqn (sortByTick tes)).getD 0 ⟨0, 0, 0⟩).absolute_tick = 0 ∧
    List.Pairwise (fun a b : TimelinePoint => a.absolute_tick ≤ b.absolute_tick)
      (buildTimeline ppqn (sortByTick tes)) ∧
    ∀ e ∈ sortByTick tes,
      1 ≤ partitionPoint (buildTimeline ppqn (sortByTick tes)) e.absolute_tick ∧
      partitionPoint (buildTimeline ppqn (sortByTick tes)) e.absolute_tick - 1 <
        (buildTimeline ppqn (sortByTick tes)).length ∧
      ((buildTimeline ppqn (sortByTick tes)).getD
          (partitionPoint (buildTimeline ppqn (sortByTick tes)) e.absolute_tick - 1)
          ⟨0, 0, 0⟩).absolute_tick ≤ e.absolute_tick := by
  have hchain := buildTimeline_chain ppqn (sortByTick tes) (sortByTick_sorted tes)
  have hne := buildTimeline_ne_nil ppqn (sortByTick tes)
  have h0 := buildTimeline_head_tick ppqn (sortByTick tes)
  refine ⟨hne, h0, ?_, ?_⟩
  · rw [List.pairwise_iff_get]
    intro i j hij
    have hget : ∀ (m : Fin (buildTimeline ppqn (sortByTick tes)).length),
        (buildTimeline ppqn (sortByTick tes)).get m =
          (buildTimeline ppqn (sortByTick tes)).getD m.1 ⟨0, 0, 0⟩ := by
      intro m
      rw [List.getD_eq_getElem _ _ m.2, List.get_eq_getElem]
    rw [hget i, hget j]
    exact chain_tick_mono hchain ⟨0, 0, 0⟩ j.1 i.1 (Nat.le_of_lt hij) j.2
  · intro e _
    have hpos := partitionPoint_pos hne h0 e.absolute_tick
    have hle : partitionPoint (buildTimeline ppqn (sortByTick tes)) e.absolute_tick ≤
        (buildTimeline ppqn (sortByTick tes)).length := takeWhile_length_le _ _
    refine ⟨hpos, by omega, partitionPoint_point_tick_le _ _ hpos⟩

/-- Witness for C10 at the decoded stream of `c1Track`: the tempo event's lookup
has a positive partition point. -/
theorem c10_timeline_lookup_safe_witness :
    (⟨480, 0, TempEventData.tempoChange 1000000⟩ : TempEvent) ∈ sortByTick c1TempEvents ∧
    1 ≤ partitionPoint (buildTimeline 480 (sortByTick c1TempEvents)) 480 :=
  ⟨by decide, ((c10_timeline_lookup_safe 480 c1TempEvents).2.2.2
    ⟨480, 0, TempEventData.tempoChange 1000000⟩ (by decide)).1⟩

theorem pairwise_filter_get {α : Type} {R : α → α → Prop} {q : α → Bool} :
    ∀ {s : List α}, List.Pairwise R (s.filter q) →
      ∀ (i j : Nat) (hi : i < s.length) (hj : j < s.length), i < j →
        q (s.get ⟨i, hi⟩) = true → q (s.get ⟨j, hj⟩) = true →
        R (s.get ⟨i, hi⟩) (s.get ⟨j, hj⟩) := by
  intro s
  induction s with
  | nil => intro _ i j hi _ _ _ _; simp at hi
  | cons a t ih =>
    intro hpw i j hi hj hij hqi hqj
    cases i with
    | zero =>
      cases j with
      | zero => simp at hij
      | succ j' =>
        simp only [List.get_eq_getElem, List.getElem_cons_zero] at hqi ⊢
        simp only [List.get_eq_getElem, List.getElem_cons_succ] at hqj ⊢
        rw [List.filter_cons_of_pos hqi] at hpw
        apply List.rel_of_pairwise_cons hpw
        rw [List.mem_filter]
        refine ⟨List.getElem_mem _, hqj⟩
    | succ i' =>
      cases j with
      | zero => simp at hij
      | succ j' =>
        simp only [List.get_eq_getElem, List.getElem_cons_succ] at hqi hqj ⊢
        have hpw' : List.Pairwise R (t.filter q) := by
          cases hqa : q a with
          | true => rw [List.filter_cons_of_pos hqa] at hpw; exact hpw.of_cons
          | false => rw [List.filter_cons_of_neg (by simp [hqa])] at hpw; exact hpw
        exact ih hpw' i' j' (by simp only [List.length_cons] at hi; omega)
          (by simp only [List.length_cons] at hj; omega) (by omega) hqi hqj

/-- C4: the global merge is the stable sort by tick over the track-order
concatenation.  For a successfully decoded track list: (i) for every tick value the
equal-tick subsequence of the sorted stream equals that of the concatenation, so
ties keep their original relative order; (ii) two equal-tick events of the sorted
stream are in non-decreasing track-index order (the concatenation lists tracks in
ascending order); (iii) for each track, the equal-tick events of the sorted stream
restricted to that track are exactly that track's decode output restricted to that
tick, in original within-track decode order. -/
theorem c4_stable_merge_tie_break (datas : List (List Nat)) (tes : List TempEvent)
    (h : parseAllTracks datas 0 = .ok tes) :
    (∀ k, (sortByTick tes).filter (fun e => e.absolute_tick == k) =
       tes.filter (fun e => e.absolute_tick == k)) ∧
    (∀ (i j : Nat) (hi : i < (sortByTick tes).length) (hj : j < (sortByTick tes).length),
       i < j →
       ((sortByTick tes).get ⟨i, hi⟩).absolute_tick =
         ((sortByTick tes).get ⟨j, hj⟩).absolute_tick →
       ((sortByTick tes).get ⟨i, hi⟩).track_index ≤
         ((sortByTick tes).get ⟨j, hj⟩).track_index) ∧
    (∀ t, t < datas.length → ∃ evs, parse_track t (datas.getD t []) = .ok evs ∧
       ∀ k, (sortByTick tes).filter
           (fun e => e.absolute_tick == k && e.track_index == t) =
         evs.filter (fun e => e.absolute_tick == k)) := by
  have hstable : ∀ k, (sortByTick tes).filter (fun e => e.absolute_tick == k) =
      tes.filter (fun e => e.absolute_tick == k) := by
    intro k
    apply filter_sortByTick
    intro a b ha hb
    have ha' : a.absolute_tick = k := by simpa using ha
    have hb' : b.absolute_tick = k := by simpa using hb
    omega
  refine ⟨hstable, ?_, ?_⟩
  · intro i j hi hj hij hticks
    have hpwtes := parseAllTracks_pairwise_track datas 0 tes h
    have hpw : List.Pairwise (fun a b => a.track_index ≤ b.track_index)
        ((sortByTick tes).filter
          (fun e => e.absolute_tick == ((sortByTick tes).get ⟨i, hi⟩).absolute_tick)) := by
      rw [hstable]
      exact hpwtes.filter _
    have hqj : (fun e => e.absolute_tick == ((sortByTick tes).get ⟨i, hi⟩).absolute_tick)
        ((sortByTick tes).get ⟨j, hj⟩) = true := by
      simp only [beq_iff_eq]
      exact hticks.symm
    exact pairwise_filter_get hpw i j hi hj hij (by simp) hqj
  · intro t ht
    obtain ⟨evs, hevs, hfilter⟩ := parseAllTracks_filter_track datas 0 tes h t ht
    refine ⟨evs, by simpa using hevs, ?_⟩
    intro k
    have h1 : (sortByTick tes).filter (fun e => e.absolute_tick == k && e.track_index == t) =
        tes.filter (fun e => e.absolute_tick == k && e.track_index == t) := by
      apply filter_sortByTick
      intro a b ha hb
      have ha' : a.absolute_tick = k := by
        have := (Bool.and_eq_true _ _).mp ha
        simpa using this.1
      have hb' : b.absolute_tick = k := by
        have := (Bool.and_eq_true _ _).mp hb
        simpa using this.1
      omega
    rw [h1]
    have h2 : tes.filter (fun e => e.absolute_tick == k && e.track_index == t) =
        (tes.filter (fun e => e.track_index == t)).filter
          (fun e => e.absolute_tick == k) := by
      rw [List.filter_filter]
    rw [h2]
    have ht0 : tes.filter (fun e => e.track_index == t) = evs := by simpa using hfilter
    rw [ht0]

/-- Witness for C4 on the concatenated two-track stream: the equal-tick subsequence
at tick 480 of the sorted stream equals that of the concatenation. -/
theorem c4_stable_merge_tie_break_witness :
    parseAllTracks [w3Track0, w3Track1] 0 = .ok w3TempEvents ∧
    (sortByTick w3TempEvents).filter (fun e => e.absolute_tick == 480) =
      w3TempEvents.filter (fun e => e.absolute_tick == 480) :=
  ⟨by decide, (c4_stable_merge_tie_break [w3Track0, w3Track1] w3TempEvents (by decide)).1 480⟩

/-- C9: after a successful parse, `get_track_event_indices` yields one bucket per
track index; every position in bucket `t` points at an event with `track_index = t`,
buckets are strictly ascending and pairwise disjoint, and every event position is in
some bucket (all decoded events carry a track index below the header's count). -/
theorem c9_track_event_indices_partition {p p' : MidiParser} {file : List Nat}
    (h : parse_file p file = (p', Except.ok ())) :
    (get_track_event_indices p').length = p'.header.tracks ∧
    (∀ t, t < p'.header.tracks →
       ∀ pos ∈ (get_track_event_indices p').getD t [],
         pos < p'.events.length ∧ (p'.events.getD pos default).track_index = t) ∧
    (∀ t, t < p'.header.tracks →
       List.Pairwise (· < ·) ((get_track_event_indices p').getD t [])) ∧
    (∀ t t', t < p'.header.tracks → t' < p'.header.tracks → t ≠ t' →
       ∀ pos, pos ∈ (get_track_event_indices p').getD t [] →
         pos ∉ (get_track_event_indices p').getD t' []) ∧
    (∀ pos, pos < p'.events.length →
       ∃ t, t < p'.header.tracks ∧ pos ∈ (get_track_event_indices p').getD t []) := by
  obtain ⟨datas, tes, htes, hlen, hparsed, hevents⟩ := parse_file_ok_inv h
  have hbound : ∀ me ∈ p'.events, me.track_index < p'.header.tracks := by
    intro me hme
    rw [hevents] at hme
    obtain ⟨e, he, -, htk⟩ := mem_convertEvents hme
    have he' : e ∈ tes := (sortByTick_perm tes).mem_iff.mp he
    have hb := (parseAllTracks_track_bounds datas 0 tes htes e he').2
    rw [htk]
    omega
  have hG : ∀ t, t < p'.header.tracks →
      (get_track_event_indices p').getD t [] = indicesFor t 0 p'.events := by
    intro t ht
    unfold get_track_event_indices
    rw [pushIndicesGo_getD _ _ _ _ (by simpa using ht)]
    rw [getD_replicate _ _ _ _ ht]
    simp
  have hLen : (get_track_event_indices p').length = p'.header.tracks := by
    unfold get_track_event_indices
    rw [pushIndicesGo_length]
    simp
  refine ⟨hLen, ?_, ?_, ?_, ?_⟩
  · intro t ht pos hpos
    rw [hG t ht] at hpos
    have hmem := indicesFor_mem _ _ _ hpos
    constructor
    · omega
    · have := hmem.2.2
      simpa using this
  · intro t ht
    rw [hG t ht]
    exact indicesFor_sorted _ _
  · intro t t' ht ht' hne pos hpos hpos'
    rw [hG t ht] at hpos
    rw [hG t' ht'] at hpos'
    have h1 := (indicesFor_mem _ _ _ hpos).2.2
    have h2 := (indicesFor_mem _ _ _ hpos').2.2
    simp only [Nat.sub_zero] at h1 h2
    exact hne (by rw [← h1, ← h2])
  · intro pos hpos
    have hmem : p'.events.getD pos default ∈ p'.events := by
      rw [List.getD_eq_getElem _ _ hpos]
      exact List.getElem_mem _
    have ht := hbound _ hmem
    refine ⟨(p'.events.getD pos default).track_index, ht, ?_⟩
    rw [hG _ ht]
    have := indicesFor_complete p'.events 0 pos hpos rfl
    simpa using this

/-- Witness for C9 on the two-track file: there are exactly two buckets. -/
theorem c9_track_event_indices_partition_witness :
    (get_track_event_indices (parse_file MidiParser.new w3File).1).length =
      (parse_file MidiParser.new w3File).1.header.tracks :=
  (@c9_track_event_indices_partition MidiParser.new
    ((parse_file MidiParser.new w3File).1) w3File (by decide)).1

/-- C7: a status byte whose high nibble is not `0xF` is handled by the channel-message
branch; if the high nibble is `0xC0` or `0xD0` exactly one data byte after the status
is consumed, otherwise exactly two, and in both cases a Midi event is emitted. -/
theorem c7_channel_message_lengths (status : Nat) (data : List Nat)
    (index absTick tk : Nat) (hnib : status &&& 0xF0 ≠ 0xF0) :
    dispatchStatus status data index absTick tk = handleChannel status data index absTick tk ∧
    ((status &&& 0xF0 = 0xC0 ∨ status &&& 0xF0 = 0xD0) → index < data.length →
       handleChannel status data index absTick tk =
         .cont (index + 1) (some ⟨absTick, tk, .midi status (data.getD index 0) 0⟩)) ∧
    (status &&& 0xF0 ≠ 0xC0 → status &&& 0xF0 ≠ 0xD0 → index + 1 < data.length →
       handleChannel status data index absTick tk =
         .cont (index + 2)
           (some ⟨absTick, tk, .midi status (data.getD index 0) (data.getD (index + 1) 0)⟩)) := by
  have h255 : status ≠ 0xFF := by
    intro hc
    subst hc
    exact hnib (by decide)
  have h240 : status ≠ 0xF0 := by
    intro hc
    subst hc
    exact hnib (by decide)
  refine ⟨?_, ?_, ?_⟩
  · simp only [dispatchStatus]
    rw [if_neg (by simpa using h255), if_neg (by simpa using h240), if_pos hnib]
  · intro hcd hidx
    simp only [handleChannel]
    rw [if_pos hidx, if_neg (by rcases hcd with hc | hc <;> simp [hc])]
  · intro hc hd hidx2
    have hidx : index < data.length := by omega
    simp only [handleChannel]
    rw [if_pos hidx, if_pos ⟨hc, hd⟩, if_pos hidx2]

/-- Witness for C7: a program change (`0xC5`) consumes one data byte, a note-on
(`0x95`) consumes two, on the concrete buffer `[7, 8, 9]`. -/
theorem c7_channel_message_lengths_witness :
    handleChannel 0xC5 [7, 8, 9] 0 0 0 =
      .cont 1 (some ⟨0, 0, .midi 0xC5 7 0⟩) ∧
    handleChannel 0x95 [7, 8, 9] 0 0 0 =
      .cont 2 (some ⟨0, 0, .midi 0x95 7 8⟩) :=
  ⟨(c7_channel_message_lengths 0xC5 [7, 8, 9] 0 0 0 (by decide)).2.1
      (Or.inl (by decide)) (by decide),
   (c7_channel_message_lengths 0x95 [7, 8, 9] 0 0 0 (by decide)).2.2
      (by decide) (by decide) (by decide)⟩

/-- C8: a SysEx message's payload is all bytes up to and including the first `0xF7`
terminator, and when no terminator occurs before the end of the buffer the payload
is all remaining bytes; in both cases the dispatch emits a SysEx event and never
raises an error. -/
theorem c8_sysex_payload (data : List Nat) (index absTick tk : Nat)
    (hidx : index ≤ data.length) :
    (0xF7 ∉ data.drop index →
       dispatchStatus 0xF0 data index absTick tk =
         .cont data.length (some ⟨absTick, tk, .sysEx (data.drop index)⟩)) ∧
    (∀ pre suf, data.drop index = pre ++ 0xF7 :: suf → 0xF7 ∉ pre →
       dispatchStatus 0xF0 data index absTick tk =
         .cont (index + pre.length + 1) (some ⟨absTick, tk, .sysEx (pre ++ [0xF7])⟩)) := by
  have hspec := readSysEx_spec data index hidx
  have hd : dispatchStatus 0xF0 data index absTick tk =
      .cont (readSysEx data index).2 (some ⟨absTick, tk, .sysEx (readSysEx data index).1⟩) := by
    simp [dispatchStatus]
  constructor
  · intro hnot
    rw [hd, hspec.1 hnot]
  · intro pre suf hss hpre
    rw [hd, hspec.2 pre suf hss hpre]

/-- Witness for C8: with terminator (`[1, 2, 0xF7, 9]`) the payload stops after the
`0xF7`; without (`[1, 2, 3]`) the payload is the whole remaining buffer. -/
theorem c8_sysex_payload_witness :
    dispatchStatus 0xF0 [1, 2, 0xF7, 9] 0 5 3 =
      .cont 3 (some ⟨5, 3, .sysEx [1, 2, 0xF7]⟩) ∧
    dispatchStatus 0xF0 [1, 2, 3] 0 5 3 =
      .cont 3 (some ⟨5, 3, .sysEx [1, 2, 3]⟩) :=
  ⟨(c8_sysex_payload [1, 2, 0xF7, 9] 0 5 3 (by decide)).2 [1, 2] [9] (by decide) (by decide),
   (c8_sysex_payload [1, 2, 3] 0 5 3 (by decide)).1 (by decide)⟩

/-- C5: the chunk framing errors.  (i) A first chunk whose magic is not `"MThd"`
fails with the corresponding FormatError.  (ii) A header magic of `"MThd"` with a
declared length other than 6 fails with the length FormatError, and the failure
depends only on the first 8 bytes — whatever track bytes follow them.  (iii) The
track-chunk loop fails with the MTrk FormatError as soon as an expected chunk's
4 magic bytes are present but differ from `"MTrk"`. -/
theorem c5_header_and_chunk_magic_errors (p : MidiParser) :
    (∀ file : List Nat, 4 ≤ file.length → file.take 4 ≠ MThdBytes →
       (parse_file p file).2 = .error (.formatError "Invalid header: no MThd")) ∧
    (∀ file : List Nat, 8 ≤ file.length → file.take 4 = MThdBytes →
       beU32l ((file.drop 4).take 4) ≠ 6 →
       ∀ rest : List Nat,
         (parse_file p (file.take 8 ++ rest)).2 =
           .error (.formatError
             ("Unexpected MThd chunk length: " ++ toString (beU32l ((file.drop 4).take 4))))) ∧
    (∀ (file : List Nat) (pos r i : Nat) (acc : List (List Nat)),
       pos + 4 ≤ file.length → (file.drop pos).take 4 ≠ MTrkBytes →
       readTrackChunks file pos (r + 1) i acc =
         .error (.formatError ("Expected MTrk at track " ++ toString i))) := by
  refine ⟨?_, ?_, ?_⟩
  · intro file hlen hmagic
    have h1 : readExact file 0 4 = .ok (file.take 4, 4) := by
      unfold readExact
      rw [if_pos (by omega)]
      simp
    simp only [parse_file, h1]
    rw [if_pos hmagic]
  · intro file hlen hmagic h6 rest
    have hlen8 : (file.take 8).length = 8 := by
      rw [List.length_take]
      omega
    have e1 : readExact (file.take 8 ++ rest) 0 4 = .ok (file.take 4, 4) := by
      rw [readExact_append (by omega)]
      unfold readExact
      rw [if_pos (by omega)]
      simp [List.take_take]
    have e2 : readExact (file.take 8 ++ rest) 4 4 = .ok ((file.drop 4).take 4, 8) := by
      rw [readExact_append (by omega)]
      unfold readExact
      rw [if_pos (by omega)]
      simp [List.drop_take, List.take_take]
    simp only [parse_file, e1]
    rw [if_neg (by simpa using hmagic)]
    simp only [e2]
    rw [if_pos h6]
  · intro file pos r i acc hpos hmagic
    have h1 : readExact file pos 4 = .ok ((file.drop pos).take 4, pos + 4) := by
      unfold readExact
      rw [if_pos (by omega)]
    simp only [readTrackChunks, h1]
    rw [if_pos hmagic]

/-- Witness for C5: the three framing errors on concrete byte streams — a wrong
header magic, a header length of 7 (independent of appended track bytes), and a
wrong chunk magic where a track chunk is expected. -/
theorem c5_header_and_chunk_magic_errors_witness :
    (parse_file MidiParser.new [1, 2, 3, 4]).2 =
      .error (.formatError "Invalid header: no MThd") ∧
    (parse_file MidiParser.new
        (([77, 84, 104, 100, 0, 0, 0, 7] : List Nat).take 8 ++ [9, 9])).2 =
      .error (.formatError ("Unexpected MThd chunk length: " ++
        toString (beU32l ((([77, 84, 104, 100, 0, 0, 0, 7] : List Nat).drop 4).take 4)))) ∧
    readTrackChunks [88, 88, 88, 88] 0 (0 + 1) 0 [] =
      .error (.formatError ("Expected MTrk at track " ++ toString 0)) :=
  ⟨(c5_header_and_chunk_magic_errors MidiParser.new).1 [1, 2, 3, 4] (by decide) (by decide),
   (c5_header_and_chunk_magic_errors MidiParser.new).2.1 [77, 84, 104, 100, 0, 0, 0, 7]
     (by decide) (by decide) (by decide) [9, 9],
   (c5_header_and_chunk_magic_errors MidiParser.new).2.2 [88, 88, 88, 88] 0 0 0 []
     (by decide) (by decide)⟩

/-- C6: running status.  (i) When the decode loop reaches a status position holding a
byte with clear high bit and no explicit status has been seen on the track
(`last_status = none`), the whole track decode fails with the running-status
FormatError.  (ii) With a previous explicit status `s`, status resolution succeeds,
consumes no byte, and yields `s` again.  (iii) In that case the loop proceeds by
dispatching on `s` at the unconsumed position.  (iv) A successful multi-track parse
requires every track decode to have succeeded, so a failing track fails the whole
parse. -/
theorem c6_running_status :
    (∀ (tk : Nat) (data : List Nat) (fuel index absTick : Nat) (acc : List TempEvent),
       index < data.length → (readVLQ32 data index).2 < data.length →
       data.getD (readVLQ32 data index).2 0 &&& 0x80 = 0 →
       parseTrackGo tk data (fuel + 1) index none absTick acc =
         .error (.formatError
           ("Running status without previous status on track " ++ toString tk))) ∧
    (∀ (tk b index s : Nat), b &&& 0x80 = 0 →
       resolveStatus tk b index (some s) = .ok (s, index, some s)) ∧
    (∀ (tk : Nat) (data : List Nat) (fuel index absTick s : Nat) (acc : List TempEvent),
       index < data.length → (readVLQ32 data index).2 < data.length →
       data.getD (readVLQ32 data index).2 0 &&& 0x80 = 0 →
       parseTrackGo tk data (fuel + 1) index (some s) absTick acc =
         match dispatchStatus s data (readVLQ32 data index).2
             (absTick + (readVLQ32 data index).1) tk with
         | .stop => .ok acc
         | .cont i3 ev =>
             parseTrackGo tk data fuel i3 (some s)
               (absTick + (readVLQ32 data index).1) (acc ++ ev.toList)) ∧
    (∀ (datas : List (List Nat)) (k : Nat) (tes : List TempEvent),
       parseAllTracks datas k = .ok tes →
       ∀ j, j < datas.length → ∃ evs, parse_track (k + j) (datas.getD j []) = .ok evs) := by
  refine ⟨?_, ?_, ?_, ?_⟩
  · intro tk data fuel index absTick acc h0 h1 hb
    have hres : resolveStatus tk (data.getD (readVLQ32 data index).2 0)
        (readVLQ32 data index).2 none =
        .error (.formatError
          ("Running status without previous status on track " ++ toString tk)) := by
      unfold resolveStatus
      rw [if_neg (by simp only [ne_eq, not_not]; exact hb)]
    simp only [parseTrackGo]
    rw [if_pos h0, if_pos h1, hres]
  · intro tk b index s hb
    unfold resolveStatus
    rw [if_neg (by simp [hb])]
  · intro tk data fuel index absTick s acc h0 h1 hb
    have hres : resolveStatus tk (data.getD (readVLQ32 data index).2 0)
        (readVLQ32 data index).2 (some s) =
        .ok (s, (readVLQ32 data index).2, some s) := by
      unfold resolveStatus
      rw [if_neg (by simp only [ne_eq, not_not]; exact hb)]
    simp only [parseTrackGo]
    rw [if_pos h0, if_pos h1, hres]
  · intro datas k tes h j hj
    obtain ⟨evs, hevs, -⟩ := parseAllTracks_filter_track datas k tes h j hj
    exact ⟨evs, hevs⟩

/-- Witness for C6: a track starting with a data byte in status position fails with
the running-status FormatError, and a running-status byte after an explicit `0x90`
resolves to `0x90` without consuming it. -/
theorem c6_running_status_witness :
    parseTrackGo 0 [0x00, 0x40, 0x41] (2 + 1) 0 none 0 [] =
      .error (.formatError
        ("Running status without previous status on track " ++ toString 0)) ∧
    resolveStatus 7 0x40 5 (some 0x90) = .ok (0x90, 5, some 0x90) :=
  ⟨(c6_running_status).1 0 [0x00, 0x40, 0x41] 2 0 0 [] (by decide) (by decide) (by decide),
   (c6_running_status).2.1 7 0x40 5 0x90 (by decide)⟩
